import Mathlib

/-!
Verification of the dutopia disk-usage analyzer.

Byte strings are modelled as `List Nat` (each element one octet).  Machine
integers are modelled as `Nat`/`Int` with explicit range bounds and explicit
wrap-around (`% 2 ^ 64`) where the Rust code can overflow in release mode.
The definitions below are byte-for-byte translations of the Rust sources:
  - rs/src/bin/duscan/csv.rs   (CSV row writer, smart quoting)
  - rs/src/bin/duzip/record.rs (byte-level CSV record reader)
  - rs/src/util/csv.rs         (tolerant integer conversion)
  - rs/src/bin/dusum/stats.rs  (UserStats, age buckets, mtime sanitizing)
  - rs/src/bin/dusum/aggregate.rs (folder ancestors)
  - rs/src/bin/dusum/main.rs   (aggregation pass)
  - rs/src/bin/duapi/index.rs  (in-memory FS index, list_children)
  - rs/src/bin/duscan/{main,worker}.rs (dispatch/shutdown protocol, as a
    transition system over the atomically-interleaved protocol state)
-/

-- ### Machine-integer ranges

def u32Max : Nat := 4294967295

def u64Max : Nat := 18446744073709551615

def i64Min : Int := -9223372036854775808

def i64Max : Int := 9223372036854775807

-- ### Decimal rendering (itoa / push_u32, push_u64, push_i64 in rs/src/util/csv.rs)

def natDigitsRev : Nat → List Nat
  | 0 => []
  | n + 1 => ((n + 1) % 10 + 48) :: natDigitsRev ((n + 1) / 10)
decreasing_by exact Nat.div_lt_self (Nat.succ_pos n) (by omega)

/-- Decimal ASCII rendering of an unsigned integer, as emitted by itoa. -/
def natToBytes (n : Nat) : List Nat :=
  if n = 0 then [48] else (natDigitsRev n).reverse

/-- Decimal ASCII rendering of a signed integer, as emitted by itoa. -/
def intToBytes (i : Int) : List Nat :=
  if i < 0 then 45 :: natToBytes i.natAbs else natToBytes i.toNat

-- ### Integer reading (str::parse and the atoi crate)

/-- Accumulate decimal digits left to right; any non-digit byte fails. -/
def digitsVal : List Nat → Nat → Option Nat
  | [], acc => some acc
  | b :: bs, acc =>
    if 48 ≤ b ∧ b ≤ 57 then digitsVal bs (10 * acc + (b - 48)) else none

/-- A nonempty all-digit byte string read as a natural number. -/
def parseNatDigits (bs : List Nat) : Option Nat :=
  match bs with
  | [] => none
  | _ => digitsVal bs 0

/-- Rust `str::parse` for an unsigned integer type with maximum `maxV`:
an optional leading plus sign, then one or more decimal digits, failing on
overflow.  A minus sign is not accepted. -/
def rustParseU (maxV : Nat) (bs : List Nat) : Option Nat :=
  match parseNatDigits (if bs.headD 0 = 43 then bs.tail else bs) with
  | some v => if v ≤ maxV then some v else none
  | none => none

/-- Nonnegative branch of the signed integer readers. -/
def parseIntPos (lo hi : Int) (ds : List Nat) : Option Int :=
  match parseNatDigits ds with
  | some v => if lo ≤ (v : Int) ∧ (v : Int) ≤ hi then some (v : Int) else none
  | none => none

/-- Negative branch of the signed integer readers. -/
def parseIntNeg (lo hi : Int) (ds : List Nat) : Option Int :=
  match parseNatDigits ds with
  | some v => if lo ≤ -(v : Int) ∧ -(v : Int) ≤ hi then some (-(v : Int)) else none
  | none => none

/-- Rust `str::parse` (and the atoi crate's checked signed read) for a signed
integer type with range `[lo, hi]`: an optional sign, then one or more decimal
digits, failing when the value leaves the range. -/
def rustParseI (lo hi : Int) (bs : List Nat) : Option Int :=
  if bs.headD 0 = 45 then parseIntNeg lo hi bs.tail
  else if bs.headD 0 = 43 then parseIntPos lo hi bs.tail
  else parseIntPos lo hi bs

-- ### rs/src/util/csv.rs : trim_ascii and parse_int

/-- `u8::is_ascii_whitespace`: space, tab, newline, form feed, carriage return. -/
def isAsciiWs (b : Nat) : Bool :=
  b = 32 || b = 9 || b = 10 || b = 12 || b = 13

/-- `trim_ascii` from rs/src/util/csv.rs: strip leading and trailing ASCII
whitespace bytes. -/
def trim_ascii (s : List Nat) : List Nat :=
  ((s.dropWhile (fun b => isAsciiWs b)).reverse.dropWhile (fun b => isAsciiWs b)).reverse

/-- `parse_int` from rs/src/util/csv.rs for a target type with range
`[lo, hi]`: a missing field reads as "0"; the field is ASCII-trimmed and read
with the atoi crate; any failure (non-numeric, overflow, sign out of range)
yields the default value 0. -/
def parse_int (lo hi : Int) (b : Option (List Nat)) : Int :=
  (rustParseI lo hi (trim_ascii (b.getD [48]))).getD 0

/-- `parse_int::<u32>` as used by dusum, as a natural number. -/
def parseU32 (b : Option (List Nat)) : Nat :=
  (parse_int 0 (u32Max : Int) b).toNat

/-- `parse_int::<u64>` as used by dusum, as a natural number. -/
def parseU64 (b : Option (List Nat)) : Nat :=
  (parse_int 0 (u64Max : Int) b).toNat

/-- `parse_int::<i64>` as used by dusum. -/
def parseI64 (b : Option (List Nat)) : Int :=
  parse_int i64Min i64Max b

-- ### rs/src/bin/duscan/csv.rs : smart quoting and the CSV row writer

/-- The quoting test of `csv_push_bytes_smart_quoted`: true when the bytes
contain a double quote, comma, newline or carriage return. -/
def needsQuoting (bytes : List Nat) : Bool :=
  bytes.any (fun b => b == 34 || b == 44 || b == 10 || b == 13)

/-- Double every `"` byte, as the slow path of `csv_push_bytes_smart_quoted`. -/
def escapeQuotes : List Nat → List Nat
  | [] => []
  | b :: bs => if b = 34 then 34 :: 34 :: escapeQuotes bs else b :: escapeQuotes bs

/-- `csv_push_bytes_smart_quoted` from rs/src/bin/duscan/csv.rs, returning the
bytes appended to the output buffer. -/
def csv_push_bytes_smart_quoted (bytes : List Nat) : List Nat :=
  if needsQuoting bytes then
    if bytes.contains 34 then 34 :: (escapeQuotes bytes ++ [34])
    else 34 :: (bytes ++ [34])
  else bytes

/-- The scanner's `Row` (rs/src/util/row.rs): unsigned fields as `Nat` bounded
by the capacity of the Rust type, times as `Int`. -/
structure Row where
  dev : Nat
  ino : Nat
  mode : Nat
  uid : Nat
  gid : Nat
  size : Nat
  blocks : Nat
  atime : Int
  mtime : Int

/-- The eight numeric CSV fields of `write_row_csv`, each followed by its
separator, in output order INODE,ATIME,MTIME,UID,GID,MODE,SIZE,DISK.
`DISK = blocks * 512` with u64 wrap-around. -/
def writeRowPrefix (r : Row) (noAtime : Bool) : List Nat :=
  natToBytes r.dev ++ [45] ++ natToBytes r.ino ++ [44] ++
  intToBytes (if noAtime then 0 else r.atime) ++ [44] ++
  intToBytes r.mtime ++ [44] ++
  natToBytes r.uid ++ [44] ++
  natToBytes r.gid ++ [44] ++
  natToBytes r.mode ++ [44] ++
  natToBytes r.size ++ [44] ++
  natToBytes (r.blocks * 512 % 2 ^ 64) ++ [44]

/-- `write_row_csv` from rs/src/bin/duscan/csv.rs: the full CSV line appended
for one row, including the trailing newline. -/
def write_row_csv (r : Row) (path : List Nat) (noAtime : Bool) : List Nat :=
  writeRowPrefix r noAtime ++ csv_push_bytes_smart_quoted path ++ [10]

-- ### rs/src/bin/duzip/record.rs : byte-level CSV reading

/-- `BinaryRecord` from rs/src/bin/duzip/record.rs. -/
structure BinaryRecord where
  path : List Nat
  dev : Nat
  ino : Nat
  atime : Int
  mtime : Int
  uid : Nat
  gid : Nat
  mode : Nat
  size : Nat
  disk : Nat
deriving DecidableEq

/-- The quote-aware field splitter of `parse_csv_line_bytes`, carrying the
in-quotes flag, the current field (reversed) and the fields seen so far
(reversed). -/
def parse_csv_line_bytes_aux : Bool → List Nat → List (List Nat) → List Nat → List (List Nat)
  | _, cur, acc, [] => (cur.reverse :: acc).reverse
  | true, cur, acc, 34 :: 34 :: rest2 => parse_csv_line_bytes_aux true (34 :: cur) acc rest2
  | true, cur, acc, 34 :: rest => parse_csv_line_bytes_aux false cur acc rest
  | false, cur, acc, 34 :: rest => parse_csv_line_bytes_aux true cur acc rest
  | false, cur, acc, 44 :: rest => parse_csv_line_bytes_aux false [] (cur.reverse :: acc) rest
  | inq, cur, acc, b :: rest => parse_csv_line_bytes_aux inq (b :: cur) acc rest

/-- `parse_csv_line_bytes` from rs/src/bin/duzip/record.rs. -/
def parse_csv_line_bytes (line : List Nat) : List (List Nat) :=
  parse_csv_line_bytes_aux false [] [] line

/-- Rust `str::split('-')` at the byte level (every occurrence separates). -/
def splitOnByteAux (sep : Nat) : List Nat → List Nat → List (List Nat)
  | cur, [] => [cur.reverse]
  | cur, b :: rest =>
    if b = sep then cur.reverse :: splitOnByteAux sep [] rest
    else splitOnByteAux sep (b :: cur) rest

def splitOnByte (sep : Nat) (bs : List Nat) : List (List Nat) :=
  splitOnByteAux sep [] bs

/-- `parse_csv_record_bytes` from rs/src/bin/duzip/record.rs.  The INODE field
is split on every dash and must give exactly two parts; every numeric field is
read strictly (`str::parse` on the lossily decoded field, which accepts the
same byte strings as the byte-level reading since sign and digit characters
are ASCII), and any failure is an error. -/
def parse_csv_record_bytes (line : List Nat) : Except String BinaryRecord :=
  let fields := parse_csv_line_bytes line
  if fields.length ≠ 9 then Except.error ("CSV record must have 9 fields")
  else
    let inodeParts := splitOnByte 45 (fields.getD 0 [])
    if inodeParts.length ≠ 2 then Except.error ("Invalid INODE format, expected dev-ino")
    else
      match rustParseU u64Max (inodeParts.getD 0 []) with
      | none => Except.error ("Invalid dev")
      | some dev =>
      match rustParseU u64Max (inodeParts.getD 1 []) with
      | none => Except.error ("Invalid ino")
      | some ino =>
      match rustParseI i64Min i64Max (fields.getD 1 []) with
      | none => Except.error ("Invalid atime")
      | some atime =>
      match rustParseI i64Min i64Max (fields.getD 2 []) with
      | none => Except.error ("Invalid mtime")
      | some mtime =>
      match rustParseU u32Max (fields.getD 3 []) with
      | none => Except.error ("Invalid uid")
      | some uid =>
      match rustParseU u32Max (fields.getD 4 []) with
      | none => Except.error ("Invalid gid")
      | some gid =>
      match rustParseU u32Max (fields.getD 5 []) with
      | none => Except.error ("Invalid mode")
      | some mode =>
      match rustParseU u64Max (fields.getD 6 []) with
      | none => Except.error ("Invalid size")
      | some size =>
      match rustParseU u64Max (fields.getD 7 []) with
      | none => Except.error ("Invalid disk")
      | some disk =>
        Except.ok { path := fields.getD 8 [], dev := dev, ino := ino,
                    atime := atime, mtime := mtime, uid := uid, gid := gid,
                    mode := mode, size := size, disk := disk }

/-- Whether the record reader rejected the line. -/
def recordIsErr (e : Except String BinaryRecord) : Bool :=
  match e with
  | Except.error _ => true
  | Except.ok _ => false

-- ### rs/src/bin/dusum/stats.rs

structure AgeCfg where
  young : Int
  old : Int

/-- `sanitize_mtime`: an mtime more than one day in the future becomes 0. -/
def sanitize_mtime (nowTs mtimeTs : Int) : Int :=
  if mtimeTs > nowTs + 86400 then 0 else mtimeTs

/-- i64 `saturating_sub`. -/
def satSubI64 (a b : Int) : Int :=
  max i64Min (min i64Max (a - b))

/-- `age_bucket` from rs/src/bin/dusum/stats.rs: 0 recent, 1 middling, 2 old
or invalid.  Division is Rust's truncating i64 division. -/
def age_bucket (nowTs mtimeTs : Int) (cfg : AgeCfg) : Nat :=
  if mtimeTs ≤ 0 then 2
  else if Int.tdiv (satSubI64 nowTs mtimeTs) 86400 < cfg.young then 0
  else if Int.tdiv (satSubI64 nowTs mtimeTs) 86400 < cfg.old then 1
  else 2

/-- u64 `saturating_add`. -/
def satAddU64 (a b : Nat) : Nat :=
  min (a + b) u64Max

structure UserStats where
  file_count : Nat
  file_size : Nat
  disk_size : Nat
  linked_size : Nat
  latest_atime : Int
  latest_mtime : Int
deriving DecidableEq

/-- `UserStats::default()`: all-zero statistics. -/
def emptyUserStats : UserStats :=
  { file_count := 0, file_size := 0, disk_size := 0, linked_size := 0,
    latest_atime := 0, latest_mtime := 0 }

/-- `UserStats::update` from rs/src/bin/dusum/stats.rs: saturating counters,
maximum timestamps. -/
def UserStats.update (s : UserStats) (size disk linked : Nat) (atimeSecs mtimeSecs : Int) : UserStats :=
  { file_count := satAddU64 s.file_count 1
    file_size := satAddU64 s.file_size size
    disk_size := satAddU64 s.disk_size disk
    linked_size := satAddU64 s.linked_size linked
    latest_atime := if atimeSecs > s.latest_atime then atimeSecs else s.latest_atime
    latest_mtime := if mtimeSecs > s.latest_mtime then mtimeSecs else s.latest_mtime }

-- ### rs/src/bin/dusum/aggregate.rs : get_folder_ancestors

/-- Backslash normalization of one byte. -/
def normSlash (b : Nat) : Nat :=
  if b = 92 then 47 else b

/-- `Iterator::rposition` of a slash: index of the last 47 byte. -/
def rposSlash : List Nat → Option Nat
  | [] => none
  | b :: bs =>
    match rposSlash bs with
    | some i => some (i + 1)
    | none => if b = 47 then some 0 else none

/-- Drop leading slash bytes while more than one byte remains (the trailing
loop of `get_folder_ancestors`, seen from the reversed list). -/
def revTrim : List Nat → List Nat
  | 47 :: y :: rest => revTrim (y :: rest)
  | l => l

/-- Pop trailing slash bytes while more than one byte remains. -/
def trimTrailingSlashes (l : List Nat) : List Nat :=
  (revTrim l.reverse).reverse

/-- The segment-building loop of `get_folder_ancestors`: extend the running
key by a slash (when past the root) and the next segment, recording each stop. -/
def buildAnc : List Nat → List (List Nat) → List (List Nat)
  | _, [] => []
  | cur, seg :: rest =>
    ((if 1 < cur.length then cur ++ [47] else cur) ++ seg) ::
      buildAnc ((if 1 < cur.length then cur ++ [47] else cur) ++ seg) rest

/-- The local `folder` of `get_folder_ancestors`: the bytes before the last
slash, with trailing slashes popped. -/
def gfaFolder (path : List Nat) (pos : Nat) : List Nat :=
  trimTrailingSlashes ((path.map normSlash).take pos)

/-- The local `trimmed` of `get_folder_ancestors`: `folder` without its
leading slash when it has one. -/
def gfaTrimmed (path : List Nat) (pos : Nat) : List Nat :=
  if (gfaFolder path pos).headD 0 = 47 then (gfaFolder path pos).tail
  else gfaFolder path pos

/-- `get_folder_ancestors` from rs/src/bin/dusum/aggregate.rs. -/
def get_folder_ancestors (path : List Nat) : List (List Nat) :=
  match rposSlash (path.map normSlash) with
  | none => [[47]]
  | some 0 => [[47]]
  | some pos =>
    if gfaTrimmed path pos = [] then [[47]]
    else [47] :: buildAnc [47] ((splitOnByte 47 (gfaTrimmed path pos)).filter (fun s => s ≠ []))

-- ### rs/src/bin/dusum/main.rs : the aggregation pass

/-- Aggregation key: (folder path bytes, owner name, age bucket). -/
abbrev AggKey : Type := List Nat × String × Nat

/-- The aggregation state: inode keys seen so far and the rollup map
(HashMap modelled as a total function defaulting to zero statistics). -/
structure AggState where
  seen : List (List Nat)
  agg : AggKey → UserStats

/-- `entry(key).or_default().update(...)` on the rollup map. -/
def updMap (m : AggKey → UserStats) (k : AggKey) (f : UserStats → UserStats) : AggKey → UserStats :=
  fun k2 => if k2 = k then f (m k2) else m k2

/-- One iteration of the dusum main loop (rs/src/bin/dusum/main.rs lines
108-150) on an already-split CSV record; `resolveUser` stands for the passwd
lookup `resolve_user`. -/
def processRecord (nowTs : Int) (cfg : AgeCfg) (resolveUser : Nat → String)
    (st : AggState) (record : List (List Nat)) : AggState :=
  let inodeBytes := record.getD 0 []
  let mode := parseU32 (record.get? 5)
  let isDir := mode &&& 61440 = 16384
  let rawAtime := parseI64 (record.get? 1)
  let rawMtime := parseI64 (record.get? 2)
  let sanitizedAtime := if isDir then 0 else sanitize_mtime nowTs rawAtime
  let sanitizedMtime := sanitize_mtime nowTs rawMtime
  let uid := parseU32 (record.get? 3)
  let user := resolveUser uid
  let fileSize := parseU64 (record.get? 6)
  let rawDisk := parseU64 (record.get? 7)
  let first := inodeBytes ∉ st.seen
  let diskSize := if first then rawDisk else 0
  let linkedSize := if first then 0 else rawDisk
  let seen2 := if first then inodeBytes :: st.seen else st.seen
  let pathBytes := record.getD 8 []
  if user = "" ∨ pathBytes = [] then { seen := seen2, agg := st.agg }
  else
    let bucket := age_bucket nowTs sanitizedMtime cfg
    let agg2 := (get_folder_ancestors pathBytes).foldl
      (fun a folderPath =>
        updMap a (folderPath, user, bucket)
          (fun s => s.update fileSize diskSize linkedSize sanitizedAtime sanitizedMtime))
      st.agg
    { seen := seen2, agg := agg2 }

/-- The whole aggregation pass over a list of records, from the empty state. -/
def processAll (nowTs : Int) (cfg : AgeCfg) (resolveUser : Nat → String)
    (records : List (List (List Nat))) : AggState :=
  records.foldl (processRecord nowTs cfg resolveUser) { seen := [], agg := fun _ => emptyUserStats }

-- ### rs/src/bin/duapi/index.rs : the in-memory FS index

structure Stats where
  file_count : Nat
  file_size : Nat
  disk_bytes : Nat
  linked_size : Nat
  latest_atime : Int
  latest_mtime : Int
deriving DecidableEq

structure Age where
  count : Nat
  size : Nat
  disk : Nat
  linked : Nat
  atime : Int
  mtime : Int
deriving DecidableEq

/-- `FolderOut`: the per-owner, per-bucket view of one child folder.  The two
HashMaps are modelled as association lists. -/
structure FolderOut where
  path : String
  users : List (String × List (String × Age))
deriving DecidableEq

inductive TrieNode where
  | mk (children : List (String × TrieNode)) (users : List String)

def TrieNode.children : TrieNode → List (String × TrieNode)
  | .mk c _ => c

def TrieNode.users : TrieNode → List String
  | .mk _ u => u

/-- `InMemoryFSIndex`: path trie, per-(path,user,age) statistics, and the
users-by-path map (HashMaps modelled as partial functions). -/
structure InMemoryFSIndex where
  root : TrieNode
  per_user_age : String × String × Nat → Option Stats
  users_by_path : String → Option (List String)

/-- One character of the backslash replacement in `normalize_path`. -/
def normSlashChar (c : Char) : Char :=
  if c = '\\' then '/' else c

/-- `normalize_path` (non-Windows build): backslashes become slashes and a
single leading slash is ensured for nonempty paths. -/
def normalize_path (path : String) : String :=
  match path.data.map normSlashChar with
  | [] => String.mk []
  | c :: rest => if c = '/' then String.mk (c :: rest) else String.mk ('/' :: c :: rest)

/-- Rust `str::trim_end_matches('/')`. -/
def trimEndSlashes (s : String) : String :=
  String.mk ((s.data.reverse.dropWhile (fun c => c = '/')).reverse)

/-- `canonical_key`: normalized path without its trailing slashes (root kept). -/
def canonical_key (path : String) : String :=
  let n := normalize_path path
  if 1 < n.length then trimEndSlashes n else n

/-- Split a character list on a separator character, Rust `str::split`. -/
def splitOnCharAux (sep : Char) : List Char → List Char → List (List Char)
  | cur, [] => [cur.reverse]
  | cur, b :: rest =>
    if b = sep then cur.reverse :: splitOnCharAux sep [] rest
    else splitOnCharAux sep (b :: cur) rest

def splitOnChar (sep : Char) (l : List Char) : List (List Char) :=
  splitOnCharAux sep [] l

/-- `path_to_components`: nonempty slash-separated segments. -/
def path_to_components (path : String) : List String :=
  ((splitOnChar ('/') (normalize_path path).data).map String.mk).filter
    (fun s => s ≠ "")

/-- Walk the trie along a component list. -/
def walkTrie : TrieNode → List String → Option TrieNode
  | t, [] => some t
  | t, c :: rest =>
    match (t.children.find? (fun p => p.1 = c)).map (fun p => p.2) with
    | none => none
    | some ch => walkTrie ch rest

def insertStr (x : String) : List String → List String
  | [] => [x]
  | y :: ys => if x ≤ y then x :: y :: ys else y :: insertStr x ys

/-- `Vec::sort` on owner names. -/
def sortStrings : List String → List String
  | [] => []
  | x :: xs => insertStr x (sortStrings xs)

def insertFolder (x : FolderOut) : List FolderOut → List FolderOut
  | [] => [x]
  | y :: ys => if x.path ≤ y.path then x :: y :: ys else y :: insertFolder x ys

/-- `sort_by` on the result path. -/
def sortFolders : List FolderOut → List FolderOut
  | [] => []
  | x :: xs => insertFolder x (sortFolders xs)

/-- The `Age` payload built from stored statistics. -/
def mkAge (s : Stats) : Age :=
  { count := s.file_count, size := s.file_size, disk := s.disk_bytes,
    linked := s.linked_size, atime := s.latest_atime, mtime := s.latest_mtime }

/-- The full path of a direct child inside `list_children`. -/
def childFullPath (basePath childName : String) : String :=
  if basePath = "" ∨ basePath = "/" then "/" ++ childName
  else trimEndSlashes basePath ++ "/" ++ childName

/-- The candidate buckets of `list_children`: the requested one, or all. -/
def agesFor (ageFilter : Option Nat) : List Nat :=
  match ageFilter with
  | some a => [a]
  | none => [0, 1, 2]

/-- The sorted candidate owners of one child in `list_children`. -/
def childToShow (userFilter availableUsers : List String) : List String :=
  sortStrings
    (if userFilter.isEmpty then availableUsers
     else availableUsers.filter (fun u => u ∈ userFilter))

/-- The per-owner bucket map of one child in `list_children`. -/
def childAgeMap (idx : InMemoryFSIndex) (pkey : String) (ages : List Nat)
    (uname : String) : List (String × Age) :=
  ages.filterMap (fun a =>
    (idx.per_user_age (pkey, uname, a)).map (fun s => (toString a, mkAge s)))

/-- The owners mapping of one child in `list_children`, omitting owners whose
bucket map is empty. -/
def childUsersMap (idx : InMemoryFSIndex) (pkey : String) (ages : List Nat)
    (usersToShow : List String) : List (String × List (String × Age)) :=
  usersToShow.filterMap (fun uname =>
    if (childAgeMap idx pkey ages uname).isEmpty then none
    else some (uname, childAgeMap idx pkey ages uname))

/-- The body of the per-child closure of `list_children`: resolve the child's
canonical key, look up its owners, filter and sort them, build the owners
mapping, and skip the child when the filter empties it or no stats exist. -/
def listChildrenChild (idx : InMemoryFSIndex) (basePath : String)
    (userFilter : List String) (ageFilter : Option Nat) (childName : String) :
    Option FolderOut :=
  match idx.users_by_path (canonical_key (childFullPath basePath childName)) with
  | none => none
  | some availableUsers =>
    if ¬ userFilter.isEmpty ∧ (childToShow userFilter availableUsers).isEmpty then none
    else if (childUsersMap idx (canonical_key (childFullPath basePath childName))
        (agesFor ageFilter) (childToShow userFilter availableUsers)).isEmpty then none
    else some { path := childFullPath basePath childName,
                users := childUsersMap idx (canonical_key (childFullPath basePath childName))
                  (agesFor ageFilter) (childToShow userFilter availableUsers) }

/-- `InMemoryFSIndex::list_children` from rs/src/bin/duapi/index.rs. -/
def list_children (idx : InMemoryFSIndex) (dirPath : String)
    (userFilter : List String) (ageFilter : Option Nat) : Except String (List FolderOut) :=
  match walkTrie idx.root (path_to_components dirPath) with
  | none => Except.error ("Directory not found: " ++ dirPath)
  | some cur =>
    Except.ok (sortFolders (cur.children.filterMap (fun child =>
      listChildrenChild idx (normalize_path dirPath) userFilter ageFilter child.1)))

-- ### rs/src/bin/duscan/{main,worker}.rs : the dispatch/shutdown protocol

/-- Protocol state of the scanner's dispatcher: `queued` Dir/Files tasks in
the channel, `active` tasks currently being handled by workers, and the value
of the shared in-flight counter. -/
structure DispatchState where
  queued : Nat
  active : Nat
  counter : Nat
deriving DecidableEq

/-- The atomic steps of the dispatch protocol, as implemented by
rs/src/bin/duscan/worker.rs and main.rs: a handler enqueues a child Dir or
Files task by incrementing the counter at the instant of enqueueing
(`enum_dir`); a worker dequeues a task to handle it; a worker finishes
handling a task, decrementing the counter exactly once, after all of that
task's child enqueues are done. -/
inductive DispatchStep : DispatchState → DispatchState → Prop where
  | enqueue (s : DispatchState) (h : 0 < s.active) :
      DispatchStep s { queued := s.queued + 1, active := s.active, counter := s.counter + 1 }
  | start (s : DispatchState) (h : 0 < s.queued) :
      DispatchStep s { queued := s.queued - 1, active := s.active + 1, counter := s.counter }
  | finish (s : DispatchState) (h : 0 < s.active) :
      DispatchStep s { queued := s.queued, active := s.active - 1, counter := s.counter - 1 }

/-- The state after seeding: `n` root Dir tasks enqueued, each preceded by an
increment of the in-flight counter; no worker is handling anything yet. -/
def dispatchInit (n : Nat) : DispatchState :=
  { queued := n, active := 0, counter := n }

/-- States the dispatcher can reach from the seeded state. -/
def DispatchReachable (n : Nat) (s : DispatchState) : Prop :=
  Relation.ReflTransGen DispatchStep (dispatchInit n) s

-- ### Concrete data used by witnesses

/-- A whole sequence of `UserStats::update` accumulation steps, applied left
to right; each step is (size, disk, linked, atime, mtime). -/
def applyUpdates (s : UserStats) (steps : List (Nat × Nat × Nat × Int × Int)) : UserStats :=
  steps.foldl (fun a u => a.update u.1 u.2.1 u.2.2.1 u.2.2.2.1 u.2.2.2.2) s

/-- The split CSV record `2049-7,0,0,1000,1000,33188,1000,1000,/a/f.txt`:
inode key 2049-7, uid 1000, a regular-file mode, size 1000 and disk 1000. -/
def sampleAggRecord : List (List Nat) :=
  [[50, 48, 52, 57, 45, 55], [48], [48], [49, 48, 48, 48], [49, 48, 48, 48],
   [51, 51, 49, 56, 56], [49, 48, 48, 48], [49, 48, 48, 48],
   [47, 97, 47, 102, 46, 116, 120, 116]]

def demoStats : Stats :=
  { file_count := 3, file_size := 600, disk_bytes := 300, linked_size := 300,
    latest_atime := 1500000000, latest_mtime := 1500000050 }

/-- A one-folder index with one owner and one age bucket, used to exercise
`list_children` on concrete input. -/
def demoIndex : InMemoryFSIndex :=
  { root := TrieNode.mk [("docs", TrieNode.mk [] ["alice"])] ["alice"]
    per_user_age := fun k => if k = ("/docs", "alice", 2) then some demoStats else none
    users_by_path := fun k => if k = "/docs" then some ["alice"] else none }

def demoFolderOut : FolderOut :=
  { path := "/docs", users := [("alice", [("2", mkAge demoStats)])] }

-- ## Helper lemmas

theorem natDigitsRev_digit : ∀ n, ∀ b ∈ natDigitsRev n, 48 ≤ b ∧ b ≤ 57 := by
  intro n
  induction n using Nat.strong_induction_on with
  | _ n ih =>
    cases n with
    | zero => intro b hb; simp [natDigitsRev] at hb
    | succ m =>
      intro b hb
      rw [natDigitsRev, List.mem_cons] at hb
      rcases hb with hb | hb
      · subst hb
        have := Nat.mod_lt (m + 1) (show 0 < 10 by omega)
        omega
      · exact ih ((m + 1) / 10) (Nat.div_lt_self (Nat.succ_pos m) (by omega)) b hb

theorem natDigitsRev_ne_nil (n : Nat) (h : n ≠ 0) : natDigitsRev n ≠ [] := by
  cases n with
  | zero => exact absurd rfl h
  | succ m => rw [natDigitsRev]; simp

theorem natToBytes_digit (n : Nat) : ∀ b ∈ natToBytes n, 48 ≤ b ∧ b ≤ 57 := by
  intro b hb
  unfold natToBytes at hb
  split at hb
  · simp at hb; omega
  · exact natDigitsRev_digit n b (List.mem_reverse.mp hb)

theorem natToBytes_ne_nil (n : Nat) : natToBytes n ≠ [] := by
  unfold natToBytes
  split
  · simp
  · next h => simp [natDigitsRev_ne_nil n h]

theorem intToBytes_byte (i : Int) : ∀ b ∈ intToBytes i, (48 ≤ b ∧ b ≤ 57) ∨ b = 45 := by
  intro b hb
  unfold intToBytes at hb
  split at hb
  · rcases List.mem_cons.mp hb with hb | hb
    · right; omega
    · left; exact natToBytes_digit _ b hb
  · left; exact natToBytes_digit _ b hb

theorem digitsVal_append (xs ys : List Nat) : ∀ acc,
    digitsVal (xs ++ ys) acc =
      match digitsVal xs acc with
      | some a => digitsVal ys a
      | none => none := by
  induction xs with
  | nil => intro acc; rfl
  | cons x xs ih =>
    intro acc
    simp only [List.cons_append, digitsVal]
    split
    · exact ih _
    · rfl

theorem digitsVal_natDigitsRev : ∀ n acc,
    digitsVal (natDigitsRev n).reverse acc = some (acc * 10 ^ (natDigitsRev n).length + n) := by
  intro n
  induction n using Nat.strong_induction_on with
  | _ n ih =>
    cases n with
    | zero => intro acc; simp [natDigitsRev, digitsVal]
    | succ m =>
      intro acc
      rw [natDigitsRev]
      simp only [List.reverse_cons, List.length_cons]
      rw [digitsVal_append]
      rw [ih ((m + 1) / 10) (Nat.div_lt_self (Nat.succ_pos m) (by omega))]
      have hd : (m + 1) % 10 < 10 := Nat.mod_lt _ (by omega)
      simp only [digitsVal]
      rw [if_pos (by omega)]
      congr 1
      have h1 : (m + 1) % 10 + 48 - 48 = (m + 1) % 10 := by omega
      rw [h1]
      have hdm := Nat.div_add_mod (m + 1) 10
      ring_nf
      omega

theorem parseNatDigits_natToBytes (n : Nat) : parseNatDigits (natToBytes n) = some n := by
  by_cases hn : n = 0
  · subst hn; rfl
  · rw [natToBytes, if_neg hn]
    have hne : (natDigitsRev n).reverse ≠ [] := by
      simp [natDigitsRev_ne_nil n hn]
    unfold parseNatDigits
    split
    · next heq => exact absurd heq hne
    · rw [digitsVal_natDigitsRev n 0]
      simp

theorem natToBytes_headD_digit (n : Nat) :
    48 ≤ (natToBytes n).headD 0 ∧ (natToBytes n).headD 0 ≤ 57 := by
  match h : natToBytes n with
  | [] => exact absurd h (natToBytes_ne_nil n)
  | d :: tl =>
    have := natToBytes_digit n d (by rw [h]; simp)
    simpa using this

theorem rustParseU_natToBytes (maxV n : Nat) (h : n ≤ maxV) :
    rustParseU maxV (natToBytes n) = some n := by
  have hh := natToBytes_headD_digit n
  unfold rustParseU
  rw [if_neg (by omega), parseNatDigits_natToBytes]
  simp [h]

theorem rustParseI_intToBytes (lo hi : Int) (i : Int) (h1 : lo ≤ i) (h2 : i ≤ hi) :
    rustParseI lo hi (intToBytes i) = some i := by
  by_cases hneg : i < 0
  · have hv : -((i.natAbs : Int)) = i := by omega
    rw [intToBytes, if_pos hneg]
    rw [rustParseI]
    simp only [List.headD_cons, List.tail_cons, if_pos]
    unfold parseIntNeg
    rw [parseNatDigits_natToBytes]
    have habs : -|i| = i := by rw [abs_of_neg hneg]; ring
    simp [hv, habs, h1, h2]
  · have hv : ((i.toNat : Int)) = i := by omega
    have hh := natToBytes_headD_digit i.toNat
    rw [intToBytes, if_neg hneg]
    rw [rustParseI, if_neg (by omega), if_neg (by omega)]
    unfold parseIntPos
    rw [parseNatDigits_natToBytes]
    simp only [hv]
    simp [h1, h2]

theorem splitOnByteAux_no_sep (sep : Nat) : ∀ (l cur : List Nat), sep ∉ l →
    splitOnByteAux sep cur l = [cur.reverse ++ l] := by
  intro l
  induction l with
  | nil => intro cur _; simp [splitOnByteAux]
  | cons b rest ih =>
    intro cur hl
    have hb : b ≠ sep := fun h => hl (by simp [h])
    calc splitOnByteAux sep cur (b :: rest)
        = splitOnByteAux sep (b :: cur) rest := by
          simp only [splitOnByteAux]; rw [if_neg hb]
      _ = [(b :: cur).reverse ++ rest] := ih (b :: cur) (fun h => hl (by simp [h]))
      _ = [cur.reverse ++ b :: rest] := by simp

theorem splitOnByteAux_pair (b : List Nat) (hb : 45 ∉ b) :
    ∀ (a cur : List Nat), 45 ∉ a →
      splitOnByteAux 45 cur (a ++ 45 :: b) = (cur.reverse ++ a) :: [b] := by
  intro a
  induction a with
  | nil =>
    intro cur _
    calc splitOnByteAux 45 cur ([] ++ 45 :: b)
        = cur.reverse :: splitOnByteAux 45 [] b := by
          simp [splitOnByteAux]
      _ = (cur.reverse ++ []) :: [b] := by
          rw [splitOnByteAux_no_sep 45 b [] hb]; simp
  | cons x xs ih =>
    intro cur hxs
    have hx : x ≠ 45 := fun h => hxs (by simp [h])
    calc splitOnByteAux 45 cur ((x :: xs) ++ 45 :: b)
        = splitOnByteAux 45 (x :: cur) (xs ++ 45 :: b) := by
          simp only [List.cons_append, splitOnByteAux]; rw [if_neg hx]; rfl
      _ = ((x :: cur).reverse ++ xs) :: [b] := ih (x :: cur) (fun h => hxs (by simp [h]))
      _ = (cur.reverse ++ x :: xs) :: [b] := by simp

theorem splitOnByte_pair (a b : List Nat) (ha : 45 ∉ a) (hb : 45 ∉ b) :
    splitOnByte 45 (a ++ 45 :: b) = [a, b] := by
  unfold splitOnByte
  rw [splitOnByteAux_pair b hb a [] ha]
  simp

theorem natToBytes_clean (n : Nat) : ∀ b ∈ natToBytes n, b ≠ 34 ∧ b ≠ 44 := by
  intro b hb
  have := natToBytes_digit n b hb
  omega

theorem intToBytes_clean (i : Int) : ∀ b ∈ intToBytes i, b ≠ 34 ∧ b ≠ 44 := by
  intro b hb
  have := intToBytes_byte i b hb
  omega

theorem pclb_aux_nil (inq : Bool) (cur : List Nat) (acc : List (List Nat)) :
    parse_csv_line_bytes_aux inq cur acc [] = (cur.reverse :: acc).reverse := by
  cases inq <;> rfl

theorem pclb_aux_push (b : Nat) (h34 : b ≠ 34) (h44 : b ≠ 44) (inq : Bool)
    (cur : List Nat) (acc : List (List Nat)) (rest : List Nat) :
    parse_csv_line_bytes_aux inq cur acc (b :: rest) =
      parse_csv_line_bytes_aux inq (b :: cur) acc rest := by
  rw [parse_csv_line_bytes_aux.eq_def]
  split
  next => simp_all
  next => simp_all
  next => simp_all
  next => simp_all
  next => simp_all
  next => simp_all

theorem pclb_aux_push_inq (b : Nat) (h34 : b ≠ 34)
    (cur : List Nat) (acc : List (List Nat)) (rest : List Nat) :
    parse_csv_line_bytes_aux true cur acc (b :: rest) =
      parse_csv_line_bytes_aux true (b :: cur) acc rest := by
  rw [parse_csv_line_bytes_aux.eq_def]
  split
  next => simp_all
  next => simp_all
  next => simp_all
  next => simp_all
  next => simp_all
  next => simp_all

theorem pclb_aux_comma (cur : List Nat) (acc : List (List Nat)) (rest : List Nat) :
    parse_csv_line_bytes_aux false cur acc (44 :: rest) =
      parse_csv_line_bytes_aux false [] (cur.reverse :: acc) rest := rfl

theorem pclb_aux_plain (bs : List Nat) (h : ∀ b ∈ bs, b ≠ 34 ∧ b ≠ 44) :
    ∀ (cur : List Nat) (acc : List (List Nat)) (rest : List Nat),
      parse_csv_line_bytes_aux false cur acc (bs ++ rest) =
        parse_csv_line_bytes_aux false (bs.reverse ++ cur) acc rest := by
  induction bs with
  | nil => intro cur acc rest; simp
  | cons b tl ih =>
    intro cur acc rest
    have hb := h b (by simp)
    calc parse_csv_line_bytes_aux false cur acc ((b :: tl) ++ rest)
        = parse_csv_line_bytes_aux false (b :: cur) acc (tl ++ rest) := by
          rw [List.cons_append, pclb_aux_push b hb.1 hb.2]
      _ = parse_csv_line_bytes_aux false (tl.reverse ++ (b :: cur)) acc rest :=
          ih (fun x hx => h x (by simp [hx])) (b :: cur) acc rest
      _ = parse_csv_line_bytes_aux false ((b :: tl).reverse ++ cur) acc rest := by simp

theorem pclb_aux_comma_chunk (f : List Nat) (hf : ∀ b ∈ f, b ≠ 34 ∧ b ≠ 44)
    (cur : List Nat) (acc : List (List Nat)) (rest : List Nat) :
    parse_csv_line_bytes_aux false cur acc ((44 :: f) ++ rest) =
      parse_csv_line_bytes_aux false (f.reverse ++ []) (cur.reverse :: acc) rest := by
  rw [List.cons_append, pclb_aux_comma, pclb_aux_plain f hf]

theorem pclb_aux_escape (bs : List Nat) :
    ∀ (cur : List Nat) (acc : List (List Nat)),
      parse_csv_line_bytes_aux true cur acc (escapeQuotes bs ++ [34]) =
        parse_csv_line_bytes_aux false (bs.reverse ++ cur) acc [] := by
  induction bs with
  | nil =>
    intro cur acc
    rfl
  | cons b tl ih =>
    intro cur acc
    by_cases hb : b = 34
    · subst hb
      calc parse_csv_line_bytes_aux true cur acc (escapeQuotes (34 :: tl) ++ [34])
          = parse_csv_line_bytes_aux true (34 :: cur) acc (escapeQuotes tl ++ [34]) := by
            simp only [escapeQuotes, if_pos rfl, List.cons_append]
            rfl
        _ = parse_csv_line_bytes_aux false (tl.reverse ++ (34 :: cur)) acc [] := ih (34 :: cur) acc
        _ = parse_csv_line_bytes_aux false ((34 :: tl).reverse ++ cur) acc [] := by simp
    · calc parse_csv_line_bytes_aux true cur acc (escapeQuotes (b :: tl) ++ [34])
          = parse_csv_line_bytes_aux true (b :: cur) acc (escapeQuotes tl ++ [34]) := by
            simp only [escapeQuotes, if_neg hb, List.cons_append]
            rw [pclb_aux_push_inq b hb]
        _ = parse_csv_line_bytes_aux false (tl.reverse ++ (b :: cur)) acc [] := ih (b :: cur) acc
        _ = parse_csv_line_bytes_aux false ((b :: tl).reverse ++ cur) acc [] := by simp

theorem escapeQuotes_eq_self (bs : List Nat) (h : 34 ∉ bs) : escapeQuotes bs = bs := by
  induction bs with
  | nil => rfl
  | cons b tl ih =>
    have hb : b ≠ 34 := fun hc => h (by simp [hc])
    simp only [escapeQuotes, if_neg hb]
    rw [ih (fun hc => h (by simp [hc]))]

theorem escapeQuotes_length (bs : List Nat) : bs.length ≤ (escapeQuotes bs).length := by
  induction bs with
  | nil => simp [escapeQuotes]
  | cons b tl ih =>
    simp only [escapeQuotes]
    split
    · simp only [List.length_cons]; omega
    · simp only [List.length_cons]; omega

theorem needsQuoting_iff (bs : List Nat) :
    needsQuoting bs = true ↔ (34 ∈ bs ∨ 44 ∈ bs ∨ 10 ∈ bs ∨ 13 ∈ bs) := by
  unfold needsQuoting
  rw [List.any_eq_true]
  constructor
  · rintro ⟨b, hb, hcond⟩
    simp only [Bool.or_eq_true, beq_iff_eq] at hcond
    rcases hcond with ((h | h) | h) | h
    · exact Or.inl (h ▸ hb)
    · exact Or.inr (Or.inl (h ▸ hb))
    · exact Or.inr (Or.inr (Or.inl (h ▸ hb)))
    · exact Or.inr (Or.inr (Or.inr (h ▸ hb)))
  · rintro (h | h | h | h)
    · exact ⟨34, h, by simp⟩
    · exact ⟨44, h, by simp⟩
    · exact ⟨10, h, by simp⟩
    · exact ⟨13, h, by simp⟩

theorem smart_quoted_of_special (p : List Nat)
    (h : 34 ∈ p ∨ 44 ∈ p ∨ 10 ∈ p ∨ 13 ∈ p) :
    csv_push_bytes_smart_quoted p = 34 :: (escapeQuotes p ++ [34]) := by
  unfold csv_push_bytes_smart_quoted
  rw [if_pos ((needsQuoting_iff p).mpr h)]
  by_cases h34 : 34 ∈ p
  · rw [if_pos (by simpa [List.contains] using h34)]
  · rw [if_neg (by simpa [List.contains] using h34)]
    rw [escapeQuotes_eq_self p h34]

theorem pclb_aux_smart (p : List Nat) (acc : List (List Nat)) :
    parse_csv_line_bytes_aux false [] acc (csv_push_bytes_smart_quoted p) =
      (p :: acc).reverse := by
  by_cases hq : needsQuoting p = true
  · rw [smart_quoted_of_special p ((needsQuoting_iff p).mp hq)]
    have h34 : (34 : Nat) = 34 := rfl
    calc parse_csv_line_bytes_aux false [] acc (34 :: (escapeQuotes p ++ [34]))
        = parse_csv_line_bytes_aux true [] acc (escapeQuotes p ++ [34]) := rfl
      _ = parse_csv_line_bytes_aux false (p.reverse ++ []) acc [] := pclb_aux_escape p [] acc
      _ = (p :: acc).reverse := by rw [pclb_aux_nil]; simp
  · have hclean : ∀ b ∈ p, b ≠ 34 ∧ b ≠ 44 := by
      intro b hb
      constructor
      · intro hc; exact hq ((needsQuoting_iff p).mpr (Or.inl (hc ▸ hb)))
      · intro hc; exact hq ((needsQuoting_iff p).mpr (Or.inr (Or.inl (hc ▸ hb))))
    have : csv_push_bytes_smart_quoted p = p := by
      unfold csv_push_bytes_smart_quoted
      rw [if_neg hq]
    rw [this]
    have hplain := pclb_aux_plain p hclean [] acc []
    rw [List.append_nil] at hplain
    rw [hplain, pclb_aux_nil]
    simp
  
theorem parse_line_write_row (r : Row) (p : List Nat) (na : Bool) :
    parse_csv_line_bytes ((write_row_csv r p na).dropLast) =
      [natToBytes r.dev ++ 45 :: natToBytes r.ino,
       intToBytes (if na then 0 else r.atime), intToBytes r.mtime,
       natToBytes r.uid, natToBytes r.gid, natToBytes r.mode, natToBytes r.size,
       natToBytes (r.blocks * 512 % 2 ^ 64), p] := by
  have hdrop : (write_row_csv r p na).dropLast =
      writeRowPrefix r na ++ csv_push_bytes_smart_quoted p := by
    rw [write_row_csv, show writeRowPrefix r na ++ csv_push_bytes_smart_quoted p ++ [10] =
      (writeRowPrefix r na ++ csv_push_bytes_smart_quoted p) ++ [10] by simp,
      List.dropLast_concat]
  rw [hdrop]
  unfold parse_csv_line_bytes writeRowPrefix
  simp only [List.append_assoc, List.singleton_append]
  rw [pclb_aux_plain (natToBytes r.dev) (natToBytes_clean _)]
  rw [pclb_aux_plain (45 :: natToBytes r.ino) (by
    intro b hb
    rcases List.mem_cons.mp hb with hb | hb
    · omega
    · exact natToBytes_clean _ b hb)]
  rw [pclb_aux_comma_chunk (intToBytes (if na then 0 else r.atime)) (intToBytes_clean _)]
  rw [pclb_aux_comma_chunk (intToBytes r.mtime) (intToBytes_clean _)]
  rw [pclb_aux_comma_chunk (natToBytes r.uid) (natToBytes_clean _)]
  rw [pclb_aux_comma_chunk (natToBytes r.gid) (natToBytes_clean _)]
  rw [pclb_aux_comma_chunk (natToBytes r.mode) (natToBytes_clean _)]
  rw [pclb_aux_comma_chunk (natToBytes r.size) (natToBytes_clean _)]
  rw [pclb_aux_comma_chunk (natToBytes (r.blocks * 512 % 2 ^ 64)) (natToBytes_clean _)]
  rw [pclb_aux_comma]
  rw [pclb_aux_smart]
  simp

-- ## Claim C1

/-- Claim C1: for every Row (with no_atime disabled) and every path byte
sequence, encoding the row as a CSV line with `write_row_csv` and then parsing
the line without its trailing newline with `parse_csv_record_bytes` yields
back exactly the same field values (dev, ino, atime, mtime, uid, gid, mode,
size, and DISK = blocks*512 as written) and the same raw path bytes,
byte-exact, including paths that are not valid UTF-8.  The hypotheses say only
that the Row's fields fit in the Rust types they model (u64/u32/i64). -/
theorem C1_csv_roundtrip (r : Row) (p : List Nat)
    (hdev : r.dev ≤ u64Max) (hino : r.ino ≤ u64Max)
    (huid : r.uid ≤ u32Max) (hgid : r.gid ≤ u32Max) (hmode : r.mode ≤ u32Max)
    (hsize : r.size ≤ u64Max)
    (hat1 : i64Min ≤ r.atime) (hat2 : r.atime ≤ i64Max)
    (hmt1 : i64Min ≤ r.mtime) (hmt2 : r.mtime ≤ i64Max) :
    parse_csv_record_bytes ((write_row_csv r p false).dropLast) =
      Except.ok { path := p, dev := r.dev, ino := r.ino, atime := r.atime,
                  mtime := r.mtime, uid := r.uid, gid := r.gid, mode := r.mode,
                  size := r.size, disk := r.blocks * 512 % 2 ^ 64 } := by
  have hfields := parse_line_write_row r p false
  simp only [Bool.false_eq_true, if_false] at hfields
  have h45dev : 45 ∉ natToBytes r.dev := by
    intro h; have := natToBytes_digit _ _ h; omega
  have h45ino : 45 ∉ natToBytes r.ino := by
    intro h; have := natToBytes_digit _ _ h; omega
  have hdisk : r.blocks * 512 % 2 ^ 64 ≤ u64Max := by
    have := Nat.mod_lt (r.blocks * 512) (show 0 < 2 ^ 64 by norm_num)
    unfold u64Max
    omega
  unfold parse_csv_record_bytes
  rw [hfields]
  rw [if_neg (by simp)]
  simp only [List.getD_cons_zero, List.getD_cons_succ]
  rw [splitOnByte_pair (natToBytes r.dev) (natToBytes r.ino) h45dev h45ino]
  rw [if_neg (by simp)]
  simp only [List.getD_cons_zero, List.getD_cons_succ]
  rw [rustParseU_natToBytes _ _ hdev, rustParseU_natToBytes _ _ hino]
  rw [rustParseI_intToBytes _ _ _ hat1 hat2, rustParseI_intToBytes _ _ _ hmt1 hmt2]
  rw [rustParseU_natToBytes _ _ huid, rustParseU_natToBytes _ _ hgid]
  rw [rustParseU_natToBytes _ _ hmode, rustParseU_natToBytes _ _ hsize]
  rw [rustParseU_natToBytes _ _ hdisk]

/-- Witness for C1 at a concrete row whose path needs quoting (it contains a
double quote, a comma and a newline) and at concrete in-range field values. -/
theorem C1_csv_roundtrip_witness :
    parse_csv_record_bytes
        ((write_row_csv
            { dev := 2049, ino := 12345, mode := 33188, uid := 1000, gid := 1000,
              size := 1024, blocks := 2, atime := 1672531200, mtime := 1672617600 }
            [47, 97, 34, 44, 10, 255, 98] false).dropLast) =
      Except.ok { path := [47, 97, 34, 44, 10, 255, 98], dev := 2049, ino := 12345,
                  atime := 1672531200, mtime := 1672617600, uid := 1000, gid := 1000,
                  mode := 33188, size := 1024, disk := 1024 } :=
  C1_csv_roundtrip
    { dev := 2049, ino := 12345, mode := 33188, uid := 1000, gid := 1000,
      size := 1024, blocks := 2, atime := 1672531200, mtime := 1672617600 }
    [47, 97, 34, 44, 10, 255, 98]
    (by decide) (by decide) (by decide) (by decide) (by decide) (by decide)
    (by decide) (by decide) (by decide) (by decide)

-- ## Claim C3

/-- Claim C3: for every raw path byte sequence, the CSV writer emits the PATH
field verbatim if and only if the bytes contain none of double-quote, comma,
newline or carriage return; otherwise it emits the bytes wrapped in double
quotes with every embedded double-quote doubled; and no field of the row other
than PATH is ever quoted (every byte of the eight numeric fields and their
separators is a decimal digit, a dash or a comma, never a quote). -/
theorem C3_smart_quoting (bytes : List Nat) :
    (csv_push_bytes_smart_quoted bytes = bytes ↔
      ¬ (34 ∈ bytes ∨ 44 ∈ bytes ∨ 10 ∈ bytes ∨ 13 ∈ bytes)) ∧
    ((34 ∈ bytes ∨ 44 ∈ bytes ∨ 10 ∈ bytes ∨ 13 ∈ bytes) →
      csv_push_bytes_smart_quoted bytes = 34 :: (escapeQuotes bytes ++ [34])) ∧
    (∀ (r : Row) (noAtime : Bool),
      write_row_csv r bytes noAtime =
        writeRowPrefix r noAtime ++ csv_push_bytes_smart_quoted bytes ++ [10] ∧
      ∀ b ∈ writeRowPrefix r noAtime, (48 ≤ b ∧ b ≤ 57) ∨ b = 45 ∨ b = 44) := by
  refine ⟨⟨?_, ?_⟩, smart_quoted_of_special bytes, ?_⟩
  · intro heq hspec
    rw [smart_quoted_of_special bytes hspec] at heq
    have hlen := congrArg List.length heq
    simp only [List.length_cons, List.length_append, List.length_singleton] at hlen
    have := escapeQuotes_length bytes
    omega
  · intro h
    unfold csv_push_bytes_smart_quoted
    rw [if_neg (fun hq => h ((needsQuoting_iff bytes).mp hq))]
  · intro r na
    refine ⟨rfl, ?_⟩
    unfold writeRowPrefix
    simp only [List.forall_mem_append, List.forall_mem_singleton]
    repeat' apply And.intro
    all_goals first
      | exact fun b hb => Or.inl (natToBytes_digit _ _ hb)
      | exact fun b hb => (intToBytes_byte _ _ hb).elim Or.inl (fun hh => Or.inr (Or.inl hh))
      | decide

/-- Witness for C3 at a path containing a double quote: the field is wrapped
in quotes and the inner quote doubled. -/
theorem C3_smart_quoting_witness :
    csv_push_bytes_smart_quoted [97, 34, 98] = 34 :: (escapeQuotes [97, 34, 98] ++ [34]) :=
  (C3_smart_quoting [97, 34, 98]).2.1 (by decide)

-- ## Claim C2

/-- Claim C2 counterexample: the line `1-2,abc,0,0,0,0,0,0,p` has exactly 9
fields and a dash in its INODE field, and the claim says the non-numeric ATIME
value `abc` is treated as zero rather than an error; the parser in fact
returns an error on it. -/
theorem C2_counterexample :
    recordIsErr (parse_csv_record_bytes
      [49, 45, 50, 44, 97, 98, 99, 44, 48, 44, 48, 44, 48, 44, 48, 44, 48, 44, 48, 44, 112]) = true := by
  decide

/-- Claim C2 as amended: the record parser succeeds exactly when the line has
9 fields, the INODE field split on every dash gives exactly two parts, both
parts read as u64, and every numeric field strictly reads as an in-range
integer of its type; any non-numeric or out-of-range numeric value is an
error, not zero. -/
theorem C2_strict_errors (line : List Nat) :
    recordIsErr (parse_csv_record_bytes line) = false ↔
      ((parse_csv_line_bytes line).length = 9 ∧
       (splitOnByte 45 ((parse_csv_line_bytes line).getD 0 [])).length = 2 ∧
       (rustParseU u64Max ((splitOnByte 45 ((parse_csv_line_bytes line).getD 0 [])).getD 0 [])).isSome = true ∧
       (rustParseU u64Max ((splitOnByte 45 ((parse_csv_line_bytes line).getD 0 [])).getD 1 [])).isSome = true ∧
       (rustParseI i64Min i64Max ((parse_csv_line_bytes line).getD 1 [])).isSome = true ∧
       (rustParseI i64Min i64Max ((parse_csv_line_bytes line).getD 2 [])).isSome = true ∧
       (rustParseU u32Max ((parse_csv_line_bytes line).getD 3 [])).isSome = true ∧
       (rustParseU u32Max ((parse_csv_line_bytes line).getD 4 [])).isSome = true ∧
       (rustParseU u32Max ((parse_csv_line_bytes line).getD 5 [])).isSome = true ∧
       (rustParseU u64Max ((parse_csv_line_bytes line).getD 6 [])).isSome = true ∧
       (rustParseU u64Max ((parse_csv_line_bytes line).getD 7 [])).isSome = true) := by
  unfold parse_csv_record_bytes
  by_cases h1 : (parse_csv_line_bytes line).length = 9
  · rw [if_neg (fun hc => hc h1)]
    by_cases h2 : (splitOnByte 45 ((parse_csv_line_bytes line).getD 0 [])).length = 2
    · rw [if_neg (fun hc => hc h2)]
      cases h3 : rustParseU u64Max ((splitOnByte 45 ((parse_csv_line_bytes line).getD 0 [])).getD 0 []) with
      | none => simp [recordIsErr, h1, h2, h3]
      | some dev =>
      cases h4 : rustParseU u64Max ((splitOnByte 45 ((parse_csv_line_bytes line).getD 0 [])).getD 1 []) with
      | none => simp [recordIsErr, h1, h2, h3, h4]
      | some ino =>
      cases h5 : rustParseI i64Min i64Max ((parse_csv_line_bytes line).getD 1 []) with
      | none => simp [recordIsErr, h1, h2, h3, h4, h5]
      | some atime =>
      cases h6 : rustParseI i64Min i64Max ((parse_csv_line_bytes line).getD 2 []) with
      | none => simp [recordIsErr, h1, h2, h3, h4, h5, h6]
      | some mtime =>
      cases h7 : rustParseU u32Max ((parse_csv_line_bytes line).getD 3 []) with
      | none => simp [recordIsErr, h1, h2, h3, h4, h5, h6, h7]
      | some uid =>
      cases h8 : rustParseU u32Max ((parse_csv_line_bytes line).getD 4 []) with
      | none => simp [recordIsErr, h1, h2, h3, h4, h5, h6, h7, h8]
      | some gid =>
      cases h9 : rustParseU u32Max ((parse_csv_line_bytes line).getD 5 []) with
      | none => simp [recordIsErr, h1, h2, h3, h4, h5, h6, h7, h8, h9]
      | some mode =>
      cases h10 : rustParseU u64Max ((parse_csv_line_bytes line).getD 6 []) with
      | none => simp [recordIsErr, h1, h2, h3, h4, h5, h6, h7, h8, h9, h10]
      | some size =>
      cases h11 : rustParseU u64Max ((parse_csv_line_bytes line).getD 7 []) with
      | none => simp [recordIsErr, h1, h2, h3, h4, h5, h6, h7, h8, h9, h10, h11]
      | some disk => simp_all [recordIsErr]
    · rw [if_pos h2]
      simp_all [recordIsErr]
  · rw [if_pos h1]
    simp_all [recordIsErr]

/-- Witness for C2 (amended) at the well-formed line `1-2,3,4,5,6,7,8,9,p`:
all structural and numeric conditions hold, so the parser succeeds. -/
theorem C2_strict_errors_witness :
    recordIsErr (parse_csv_record_bytes
      [49, 45, 50, 44, 51, 44, 52, 44, 53, 44, 54, 44, 55, 44, 56, 44, 57, 44, 112]) = false :=
  (C2_strict_errors
      [49, 45, 50, 44, 51, 44, 52, 44, 53, 44, 54, 44, 55, 44, 56, 44, 57, 44, 112]).mpr
    (by decide)

-- ## Claim C6

/-- Claim C6: with the default thresholds young=60 and old=600 days, the age
bucket is 0 when the age in whole days (truncating division of the saturating
difference now - mtime by 86400) is at most 59 = young_days - 1, 1 when it is
between young_days and old_days - 1, and 2 when it is old_days or more; any
mtime that is zero or negative is bucketed as 2. -/
theorem C6_age_bucket_boundaries (nowTs mtimeTs : Int) :
    (mtimeTs ≤ 0 → age_bucket nowTs mtimeTs { young := 60, old := 600 } = 2) ∧
    (0 < mtimeTs →
      (Int.tdiv (satSubI64 nowTs mtimeTs) 86400 ≤ 59 →
        age_bucket nowTs mtimeTs { young := 60, old := 600 } = 0) ∧
      (60 ≤ Int.tdiv (satSubI64 nowTs mtimeTs) 86400 ∧
          Int.tdiv (satSubI64 nowTs mtimeTs) 86400 ≤ 599 →
        age_bucket nowTs mtimeTs { young := 60, old := 600 } = 1) ∧
      (600 ≤ Int.tdiv (satSubI64 nowTs mtimeTs) 86400 →
        age_bucket nowTs mtimeTs { young := 60, old := 600 } = 2)) := by
  have hy : ({ young := 60, old := 600 } : AgeCfg).young = 60 := rfl
  have ho : ({ young := 60, old := 600 } : AgeCfg).old = 600 := rfl
  unfold age_bucket
  rw [hy, ho]
  refine ⟨fun h => ?_, fun h => ⟨fun hd => ?_, fun hd => ?_, fun hd => ?_⟩⟩
  · rw [if_pos h]
  · rw [if_neg (by omega), if_pos (by omega)]
  · rw [if_neg (by omega), if_neg (by omega), if_pos (by omega)]
  · rw [if_neg (by omega), if_neg (by omega), if_neg (by omega)]

/-- Witness for C6 at the boundary age of exactly 60 days, which lands in
bucket 1. -/
theorem C6_age_bucket_boundaries_witness :
    age_bucket 1000000000 (1000000000 - 60 * 86400) { young := 60, old := 600 } = 1 :=
  ((C6_age_bucket_boundaries 1000000000 (1000000000 - 60 * 86400)).2
    (by decide)).2.1 (by decide)

-- ## Claim C7

theorem update_latest_atime (s : UserStats) (sz d l : Nat) (a m : Int) :
    (s.update sz d l a m).latest_atime = max s.latest_atime a := by
  simp only [UserStats.update]
  rw [max_def]
  split_ifs <;> omega

theorem update_latest_mtime (s : UserStats) (sz d l : Nat) (a m : Int) :
    (s.update sz d l a m).latest_mtime = max s.latest_mtime m := by
  simp only [UserStats.update]
  rw [max_def]
  split_ifs <;> omega

-- ## Claim C7 main statement

/-- Claim C7: `UserStats::update` steps commute on the four saturating
counters (file_count, file_size, disk_size, linked_size), and after any
sequence of updates each latest_* field equals the maximum of its initial
value and all observed timestamps. -/
theorem C7_update_commutes (s : UserStats) :
    (∀ (s1 d1 l1 : Nat) (a1 m1 : Int) (s2 d2 l2 : Nat) (a2 m2 : Int),
      ((s.update s1 d1 l1 a1 m1).update s2 d2 l2 a2 m2).file_count =
        ((s.update s2 d2 l2 a2 m2).update s1 d1 l1 a1 m1).file_count ∧
      ((s.update s1 d1 l1 a1 m1).update s2 d2 l2 a2 m2).file_size =
        ((s.update s2 d2 l2 a2 m2).update s1 d1 l1 a1 m1).file_size ∧
      ((s.update s1 d1 l1 a1 m1).update s2 d2 l2 a2 m2).disk_size =
        ((s.update s2 d2 l2 a2 m2).update s1 d1 l1 a1 m1).disk_size ∧
      ((s.update s1 d1 l1 a1 m1).update s2 d2 l2 a2 m2).linked_size =
        ((s.update s2 d2 l2 a2 m2).update s1 d1 l1 a1 m1).linked_size) ∧
    (∀ steps : List (Nat × Nat × Nat × Int × Int),
      (applyUpdates s steps).latest_atime =
        steps.foldl (fun acc u => max acc u.2.2.2.1) s.latest_atime ∧
      (applyUpdates s steps).latest_mtime =
        steps.foldl (fun acc u => max acc u.2.2.2.2) s.latest_mtime) := by
  constructor
  · intro s1 d1 l1 a1 m1 s2 d2 l2 a2 m2
    refine ⟨?_, ?_, ?_, ?_⟩ <;> simp [UserStats.update, satAddU64] <;> omega
  · intro steps
    induction steps generalizing s with
    | nil => exact ⟨rfl, rfl⟩
    | cons u us ih =>
      have h1 := ih (s.update u.1 u.2.1 u.2.2.1 u.2.2.2.1 u.2.2.2.2)
      refine ⟨?_, ?_⟩
      · show (applyUpdates (s.update u.1 u.2.1 u.2.2.1 u.2.2.2.1 u.2.2.2.2) us).latest_atime = _
        rw [h1.1, update_latest_atime]
        rfl
      · show (applyUpdates (s.update u.1 u.2.1 u.2.2.1 u.2.2.2.1 u.2.2.2.2) us).latest_mtime = _
        rw [h1.2, update_latest_mtime]
        rfl

-- ## Claim C9

/-- Claim C9: in the scanner's dispatch protocol, where the in-flight counter
is incremented before any Dir or Files task is enqueued and decremented
exactly once when its handling finishes, the counter always equals queued
plus active tasks; hence in any reachable state where the watcher observes
counter = 0, nothing is queued, no handler is active, and no protocol step at
all (in particular no further Dir or Files enqueue) is possible, so sending
the Shutdown tasks then can never cut off work that could still appear. -/
theorem C9_shutdown_stable_zero (n : Nat) (s : DispatchState)
    (h : DispatchReachable n s) :
    s.counter = s.queued + s.active ∧
    (s.counter = 0 → s.queued = 0 ∧ s.active = 0 ∧ ∀ t, ¬ DispatchStep s t) := by
  have hinv : s.counter = s.queued + s.active := by
    induction h with
    | refl => rfl
    | tail _ hbc ih => cases hbc <;> simp_all <;> omega
  refine ⟨hinv, fun h0 => ?_⟩
  have hq : s.queued = 0 := by omega
  have ha : s.active = 0 := by omega
  refine ⟨hq, ha, fun t ht => ?_⟩
  cases ht <;> omega

/-- Witness for C9 at the empty seeding (zero roots): the seeded state itself
is reachable and satisfies the counter invariant. -/
theorem C9_shutdown_stable_zero_witness :
    (dispatchInit 0).counter = (dispatchInit 0).queued + (dispatchInit 0).active :=
  (C9_shutdown_stable_zero 0 (dispatchInit 0) Relation.ReflTransGen.refl).1

-- ## Claim C10

theorem dropWhile_append_all (p : Nat → Bool) (l1 l2 : List Nat)
    (h : ∀ b ∈ l1, p b) : (l1 ++ l2).dropWhile p = l2.dropWhile p := by
  induction l1 with
  | nil => rfl
  | cons x xs ih =>
    rw [List.cons_append, List.dropWhile_cons, if_pos (h x (by simp))]
    exact ih (fun b hb => h b (by simp [hb]))

theorem dropWhile_append_left (p : Nat → Bool) (l1 l2 : List Nat)
    (h : l1.dropWhile p ≠ []) : (l1 ++ l2).dropWhile p = l1.dropWhile p ++ l2 := by
  induction l1 with
  | nil => simp [List.dropWhile] at h
  | cons x xs ih =>
    by_cases hp : p x
    · rw [List.dropWhile_cons, if_pos hp] at h
      rw [List.cons_append, List.dropWhile_cons, if_pos hp,
          List.dropWhile_cons, if_pos hp]
      exact ih h
    · rw [List.cons_append, List.dropWhile_cons, if_neg hp,
          List.dropWhile_cons, if_neg hp]
      simp

theorem trim_ascii_pad (pre post bs : List Nat)
    (hpre : ∀ b ∈ pre, isAsciiWs b) (hpost : ∀ b ∈ post, isAsciiWs b) :
    trim_ascii (pre ++ bs ++ post) = trim_ascii bs := by
  unfold trim_ascii
  rw [List.append_assoc, dropWhile_append_all _ pre _ hpre]
  by_cases h : bs.dropWhile (fun b => isAsciiWs b) = []
  · rw [dropWhile_append_all _ bs _ (List.dropWhile_eq_nil_iff.mp h)]
    rw [List.dropWhile_eq_nil_iff.mpr hpost, h]
  · rw [dropWhile_append_left _ bs post h, List.reverse_append]
    rw [dropWhile_append_all _ post.reverse _ (fun b hb => hpost b (List.mem_reverse.mp hb))]

theorem parseIntPos_range (lo hi : Int) (ds : List Nat) (v : Int)
    (h : parseIntPos lo hi ds = some v) : lo ≤ v ∧ v ≤ hi := by
  unfold parseIntPos at h
  split at h
  · split at h
    · next hcond =>
      injection h with h2
      rw [← h2]
      exact hcond
    · simp at h
  · simp at h

theorem parseIntNeg_range (lo hi : Int) (ds : List Nat) (v : Int)
    (h : parseIntNeg lo hi ds = some v) : lo ≤ v ∧ v ≤ hi := by
  unfold parseIntNeg at h
  split at h
  · split at h
    · next hcond =>
      injection h with h2
      rw [← h2]
      exact hcond
    · simp at h
  · simp at h

theorem rustParseI_range (lo hi : Int) (bs : List Nat) (v : Int)
    (h : rustParseI lo hi bs = some v) : lo ≤ v ∧ v ≤ hi := by
  unfold rustParseI at h
  split_ifs at h
  · exact parseIntNeg_range _ _ _ _ h
  · exact parseIntPos_range _ _ _ _ h
  · exact parseIntPos_range _ _ _ _ h

/-- Claim C10: the tolerant integer reader `parse_int` first trims leading
and trailing ASCII whitespace, and returns 0 not only for a missing or
non-numeric field but also for any value outside the target type's range
(`4294967296` read as u32 gives 0, and any negative value read as an unsigned
type gives 0); every non-default result lies inside the target range. -/
theorem C10_parse_int_tolerant :
    (∀ (lo hi : Int) (b : Option (List Nat)),
      parse_int lo hi b = 0 ∨ (lo ≤ parse_int lo hi b ∧ parse_int lo hi b ≤ hi)) ∧
    (∀ (lo hi : Int) (pre post bs : List Nat),
      (∀ b ∈ pre, isAsciiWs b) → (∀ b ∈ post, isAsciiWs b) →
      parse_int lo hi (some (pre ++ bs ++ post)) = parse_int lo hi (some bs)) ∧
    parse_int 0 (u32Max : Int) (some [52, 50, 57, 52, 57, 54, 55, 50, 57, 54]) = 0 ∧
    parse_int 0 (u32Max : Int) (some [45, 49]) = 0 ∧
    parse_int 0 (u32Max : Int) (some [32, 102, 111, 111, 32]) = 0 ∧
    parse_int 0 (u32Max : Int) none = 0 ∧
    parse_int i64Min i64Max (some [32, 43, 55, 32]) = 7 ∧
    parse_int 0 (u32Max : Int) (some [32, 52, 50, 32]) = 42 := by
  refine ⟨?_, ?_, by decide, by decide, by decide, by decide, by decide, by decide⟩
  · intro lo hi b
    unfold parse_int
    cases hr : rustParseI lo hi (trim_ascii (b.getD [48])) with
    | none => left; rfl
    | some v =>
      right
      have := rustParseI_range _ _ _ _ hr
      simpa using this
  · intro lo hi pre post bs hpre hpost
    unfold parse_int
    rw [show (some (pre ++ bs ++ post)).getD [48] = pre ++ bs ++ post from rfl,
        show (some bs).getD [48] = bs from rfl,
        trim_ascii_pad pre post bs hpre hpost]

/-- Witness for C10: the whitespace-invariance component at the padded field
` 42 `. -/
theorem C10_parse_int_tolerant_witness :
    parse_int 0 (u32Max : Int) (some ([32] ++ [52, 50] ++ [32])) =
      parse_int 0 (u32Max : Int) (some [52, 50]) :=
  C10_parse_int_tolerant.2.1 0 (u32Max : Int) [32] [32] [52, 50]
    (by decide) (by decide)

-- ## Claim C5

theorem splitOnByteAux_chunks (sep : Nat) : ∀ (l cur : List Nat), sep ∉ cur →
    ∀ s ∈ splitOnByteAux sep cur l, sep ∉ s := by
  intro l
  induction l with
  | nil =>
    intro cur hcur s hs
    simp only [splitOnByteAux, List.mem_singleton] at hs
    subst hs
    simpa using hcur
  | cons b rest ih =>
    intro cur hcur s hs
    simp only [splitOnByteAux] at hs
    by_cases hb : b = sep
    · rw [if_pos hb] at hs
      rcases List.mem_cons.mp hs with h | h
      · subst h; simpa using hcur
      · exact ih [] (by simp) s h
    · rw [if_neg hb] at hs
      refine ih (b :: cur) ?_ s hs
      intro hmem
      rcases List.mem_cons.mp hmem with h | h
      · exact hb h.symm
      · exact hcur h

theorem splitOnByte_chunks (sep : Nat) (l : List Nat) :
    ∀ s ∈ splitOnByte sep l, sep ∉ s :=
  splitOnByteAux_chunks sep l [] (by simp)

theorem rposSlash_none (l : List Nat) (h : 47 ∉ l) : rposSlash l = none := by
  induction l with
  | nil => rfl
  | cons b bs ih =>
    have hb : b ≠ 47 := fun hc => h (by simp [hc])
    simp only [rposSlash, ih (fun hc => h (by simp [hc]))]
    rw [if_neg hb]

theorem chain'_no47 (s : List Nat) (h : 47 ∉ s) :
    List.Chain' (fun a b => ¬(a = 47 ∧ b = 47)) s := by
  induction s with
  | nil => exact List.chain'_nil
  | cons x t ih =>
    refine List.chain'_cons'.mpr ⟨?_, ih (fun hc => h (by simp [hc]))⟩
    intro y _ hc
    exact h (hc.1 ▸ List.mem_cons_self x t)

theorem buildAnc_chain : ∀ (segs : List (List Nat)) (cur : List Nat),
    (∀ s ∈ segs, s ≠ []) →
    List.Chain' (fun a b => a <+: b ∧ a.length < b.length) (cur :: buildAnc cur segs) := by
  intro segs
  induction segs with
  | nil => intro cur _; exact List.chain'_singleton cur
  | cons seg rest ih =>
    intro cur hne
    simp only [buildAnc]
    refine List.chain'_cons.mpr ⟨⟨?_, ?_⟩, ih _ (fun s hs => hne s (by simp [hs]))⟩
    · rcases le_or_lt cur.length 1 with h | h
      · rw [if_neg (by omega)]
        exact List.prefix_append cur seg
      · rw [if_pos h, List.append_assoc]
        exact List.prefix_append cur _
    · have hseg : 0 < seg.length := List.length_pos.mpr (hne seg (by simp))
      split_ifs <;> simp only [List.length_append, List.length_singleton] <;> omega

theorem buildAnc_good : ∀ (segs : List (List Nat)) (cur : List Nat),
    (∀ s ∈ segs, s ≠ [] ∧ 47 ∉ s) →
    cur.head? = some 47 →
    (cur = [47] ∨ cur.getLast? ≠ some 47) →
    List.Chain' (fun a b => ¬(a = 47 ∧ b = 47)) cur →
    ∀ k ∈ buildAnc cur segs,
      k.head? = some 47 ∧ k.getLast? ≠ some 47 ∧
      List.Chain' (fun a b => ¬(a = 47 ∧ b = 47)) k := by
  intro segs
  induction segs with
  | nil =>
    intro cur _ _ _ _ k hk
    simp [buildAnc] at hk
  | cons seg rest ih =>
    intro cur hs hhead hlast hnd k hk
    obtain ⟨hseg_ne, hseg47⟩ := hs seg (by simp)
    obtain ⟨c, cs, hcur⟩ : ∃ c cs, cur = c :: cs := by
      cases cur with
      | nil => simp at hhead
      | cons c cs => exact ⟨c, cs, rfl⟩
    have hc47 : c = 47 := by rw [hcur] at hhead; simpa using hhead
    simp only [buildAnc] at hk
    have h2head : ((if 1 < cur.length then cur ++ [47] else cur) ++ seg).head? = some 47 := by
      rw [hcur, hc47]
      split_ifs <;> simp
    have h2last : ((if 1 < cur.length then cur ++ [47] else cur) ++ seg).getLast? ≠ some 47 := by
      rw [List.getLast?_append_of_ne_nil _ hseg_ne]
      intro hcon
      exact hseg47 (List.mem_of_mem_getLast? hcon)
    have h2nd : List.Chain' (fun a b => ¬(a = 47 ∧ b = 47))
        ((if 1 < cur.length then cur ++ [47] else cur) ++ seg) := by
      refine List.Chain'.append ?_ (chain'_no47 seg hseg47) ?_
      · split_ifs with hlen
        · refine List.Chain'.append hnd (List.chain'_singleton 47) ?_
          intro x hx y hy hc
          rcases hlast with h1 | h1
          · rw [h1] at hlen; simp at hlen
          · exact h1 (by rw [← hc.1]; exact hx)
        · exact hnd
      · intro x hx y hy hc
        exact hseg47 (hc.2 ▸ List.mem_of_mem_head? hy)
    rcases List.mem_cons.mp hk with hk | hk
    · subst hk
      exact ⟨h2head, h2last, h2nd⟩
    · exact ih _ (fun s hs2 => hs s (by simp [hs2])) h2head (Or.inr h2last) h2nd k hk

theorem chain'_growth_pairwise : ∀ (l : List (List Nat)),
    List.Chain' (fun a b => a <+: b ∧ a.length < b.length) l →
    List.Pairwise (fun a b => a.length < b.length) l := by
  intro l
  induction l with
  | nil => exact fun _ => List.Pairwise.nil
  | cons a t ih =>
    intro h
    cases t with
    | nil => simp
    | cons b t2 =>
      rw [List.chain'_cons] at h
      have hp := ih h.2
      refine List.Pairwise.cons ?_ hp
      intro x hx
      rcases List.mem_cons.mp hx with hx | hx
      · subst hx; exact h.1.2
      · exact lt_trans h.1.2 ((List.pairwise_cons.mp hp).1 x hx)

theorem anc_props (segs : List (List Nat)) (hs : ∀ s ∈ segs, s ≠ [] ∧ 47 ∉ s) :
    ([47] :: buildAnc [47] segs).head? = some [47] ∧
    [47] ∈ ([47] :: buildAnc [47] segs) ∧
    List.Chain' (fun a b => a <+: b ∧ a.length < b.length) ([47] :: buildAnc [47] segs) ∧
    ([47] :: buildAnc [47] segs).Nodup ∧
    (∀ k ∈ ([47] :: buildAnc [47] segs),
      k.head? = some 47 ∧ (k = [47] ∨ k.getLast? ≠ some 47) ∧
      List.Chain' (fun a b => ¬(a = 47 ∧ b = 47)) k) := by
  have hchain := buildAnc_chain segs [47] (fun s hss => (hs s hss).1)
  refine ⟨rfl, List.mem_cons_self _ _, hchain, ?_, ?_⟩
  · have hp := chain'_growth_pairwise _ hchain
    exact hp.imp (fun {a b} hlt heq => absurd (heq ▸ hlt) (lt_irrefl _))
  · intro k hk
    rcases List.mem_cons.mp hk with hk | hk
    · subst hk
      exact ⟨rfl, Or.inl rfl, List.chain'_singleton 47⟩
    · have := buildAnc_good segs [47] hs rfl (Or.inl rfl) (List.chain'_singleton 47) k hk
      exact ⟨this.1, Or.inr this.2.1, this.2.2⟩

-- ## Claim C5 main statement

/-- Claim C5: for every path byte sequence, `get_folder_ancestors` (which
replaces backslashes with `/`, collapses repeated `/` when splitting segments
and trims trailing `/` except for the root) returns the chain of ancestor
folder keys of the path's parent starting with `/`: the first element is `/`,
`/` is a member, the list is a strict prefix chain with strictly growing
length, it has no duplicates, every key starts with `/`, no key other than
`/` itself ends with `/`, no key contains an empty segment (two adjacent
slashes), a path whose normalized form has no slash beyond a possible leading
one yields exactly `[/]`, and the spec's worked example
`/a//b///c//file.txt` yields `[/, /a, /a/b, /a/b/c]`. -/
theorem C5_folder_ancestors :
    (∀ p : List Nat,
      (get_folder_ancestors p).head? = some [47] ∧
      [47] ∈ get_folder_ancestors p ∧
      List.Chain' (fun a b => a <+: b ∧ a.length < b.length) (get_folder_ancestors p) ∧
      (get_folder_ancestors p).Nodup ∧
      (∀ k ∈ get_folder_ancestors p,
        k.head? = some 47 ∧ (k = [47] ∨ k.getLast? ≠ some 47) ∧
        List.Chain' (fun a b => ¬(a = 47 ∧ b = 47)) k) ∧
      (47 ∉ (p.map normSlash).tail → get_folder_ancestors p = [[47]])) ∧
    get_folder_ancestors
        [47, 97, 47, 47, 98, 47, 47, 47, 99, 47, 47, 102, 105, 108, 101, 46, 116, 120, 116] =
      [[47], [47, 97], [47, 97, 47, 98], [47, 97, 47, 98, 47, 99]] := by
  have htriv : ([[47]] : List (List Nat)).head? = some [47] ∧
      [47] ∈ ([[47]] : List (List Nat)) ∧
      List.Chain' (fun a b => a <+: b ∧ a.length < b.length) ([[47]] : List (List Nat)) ∧
      ([[47]] : List (List Nat)).Nodup ∧
      (∀ k ∈ ([[47]] : List (List Nat)),
        k.head? = some 47 ∧ (k = [47] ∨ k.getLast? ≠ some 47) ∧
        List.Chain' (fun a b => ¬(a = 47 ∧ b = 47)) k) := by
    refine ⟨rfl, by simp, List.chain'_singleton _, by simp, ?_⟩
    intro k hk
    simp only [List.mem_singleton] at hk
    subst hk
    exact ⟨rfl, Or.inl rfl, List.chain'_singleton 47⟩
  constructor
  · intro p
    have hcases : get_folder_ancestors p = [[47]] ∨
        ∃ segs, (∀ s ∈ segs, s ≠ [] ∧ 47 ∉ s) ∧
          get_folder_ancestors p = [47] :: buildAnc [47] segs := by
      unfold get_folder_ancestors
      split
      next => left; rfl
      next => left; rfl
      next =>
        rename_i pos hne heq
        by_cases ht : gfaTrimmed p pos = []
        · left; rw [if_pos ht]
        · right
          refine ⟨(splitOnByte 47 (gfaTrimmed p pos)).filter (fun s => s ≠ []),
            ?_, by rw [if_neg ht]⟩
          intro s hss
          rw [List.mem_filter] at hss
          exact ⟨by simpa using hss.2, splitOnByte_chunks 47 _ s hss.1⟩
    have h5 : (get_folder_ancestors p).head? = some [47] ∧
        [47] ∈ get_folder_ancestors p ∧
        List.Chain' (fun a b => a <+: b ∧ a.length < b.length) (get_folder_ancestors p) ∧
        (get_folder_ancestors p).Nodup ∧
        (∀ k ∈ get_folder_ancestors p,
          k.head? = some 47 ∧ (k = [47] ∨ k.getLast? ≠ some 47) ∧
          List.Chain' (fun a b => ¬(a = 47 ∧ b = 47)) k) := by
      rcases hcases with h | ⟨segs, hsegs, h⟩
      · rw [h]; exact htriv
      · rw [h]; exact anc_props segs hsegs
    refine ⟨h5.1, h5.2.1, h5.2.2.1, h5.2.2.2.1, h5.2.2.2.2, ?_⟩
    intro htail
    unfold get_folder_ancestors
    cases hp : p.map normSlash with
    | nil => rfl
    | cons b bs =>
      have hbs : 47 ∉ bs := by rw [hp] at htail; simpa using htail
      rw [show rposSlash (b :: bs) = if b = 47 then some 0 else none from by
        simp only [rposSlash, rposSlash_none bs hbs]]
      by_cases hb : b = 47
      · rw [if_pos hb]
      · rw [if_neg hb]
  · decide

/-- Witness for C5: a path with no slash at all maps to the root-only list. -/
theorem C5_folder_ancestors_witness : get_folder_ancestors [97] = [[47]] :=
  (C5_folder_ancestors.1 [97]).2.2.2.2.2 (by decide)

-- ## Claim C4

theorem gfa_shape (p : List Nat) : get_folder_ancestors p = [[47]] ∨
    ∃ segs, (∀ s ∈ segs, s ≠ [] ∧ 47 ∉ s) ∧
      get_folder_ancestors p = [47] :: buildAnc [47] segs := by
  unfold get_folder_ancestors
  split
  next => left; rfl
  next => left; rfl
  next =>
    rename_i pos hne heq
    by_cases ht : gfaTrimmed p pos = []
    · left; rw [if_pos ht]
    · right
      refine ⟨(splitOnByte 47 (gfaTrimmed p pos)).filter (fun s => s ≠ []),
        ?_, by rw [if_neg ht]⟩
      intro s hss
      rw [List.mem_filter] at hss
      exact ⟨by simpa using hss.2, splitOnByte_chunks 47 _ s hss.1⟩

theorem folder_ancestors_nodup (p : List Nat) : (get_folder_ancestors p).Nodup := by
  rcases gfa_shape p with h | ⟨segs, hsegs, h⟩
  · rw [h]; simp
  · rw [h]; exact (anc_props segs hsegs).2.2.2.1

theorem foldl_updMap_anc (f : UserStats → UserStats) (user : String) (bucket : Nat) :
    ∀ (fps : List (List Nat)), fps.Nodup → ∀ (m : AggKey → UserStats) (fp : List Nat),
      (fps.foldl (fun a fp2 => updMap a (fp2, user, bucket) f) m) (fp, user, bucket) =
        if fp ∈ fps then f (m (fp, user, bucket)) else m (fp, user, bucket) := by
  intro fps
  induction fps with
  | nil => intro _ m fp; simp
  | cons fp0 fps ih =>
    intro hnd m fp
    rw [List.foldl_cons, ih (List.nodup_cons.mp hnd).2]
    by_cases hk : fp ∈ fps
    · rw [if_pos hk, if_pos (by simp [hk])]
      have hne : fp ≠ fp0 := fun hc => (List.nodup_cons.mp hnd).1 (hc ▸ hk)
      simp [updMap, hne]
    · rw [if_neg hk]
      by_cases hk0 : fp = fp0
      · subst hk0
        rw [if_pos (by simp)]
        simp [updMap]
      · rw [if_neg (by simp [hk0, hk])]
        simp [updMap, hk0]

/-- Claim C4: in the dusum aggregation pass, the first row carrying a given
inode key contributes its raw disk bytes as the `disk` argument of
`UserStats::update` (and 0 as `linked`) at every ancestor key, every
subsequent row with the same inode key contributes 0 as `disk` and its raw
disk bytes as `linked`, the seen-set gains the inode key exactly on first
sight, and the spec's concrete scenario holds: two rows for inode key
`2049-7` with disk 1000 into the same (folder, user, age) key yield
file_count 2, disk_size 1000 and linked_size 1000. -/
theorem C4_first_seen_disk (nowTs : Int) (cfg : AgeCfg) (resolveUser : Nat → String)
    (st : AggState) (record : List (List Nat))
    (huser : resolveUser (parseU32 (record.get? 3)) ≠ "")
    (hpath : record.getD 8 [] ≠ []) :
    (record.getD 0 [] ∉ st.seen →
      ∀ fp ∈ get_folder_ancestors (record.getD 8 []),
        (processRecord nowTs cfg resolveUser st record).agg
            (fp, resolveUser (parseU32 (record.get? 3)),
              age_bucket nowTs (sanitize_mtime nowTs (parseI64 (record.get? 2))) cfg) =
          (st.agg (fp, resolveUser (parseU32 (record.get? 3)),
              age_bucket nowTs (sanitize_mtime nowTs (parseI64 (record.get? 2))) cfg)).update
            (parseU64 (record.get? 6)) (parseU64 (record.get? 7)) 0
            (if parseU32 (record.get? 5) &&& 61440 = 16384 then 0
              else sanitize_mtime nowTs (parseI64 (record.get? 1)))
            (sanitize_mtime nowTs (parseI64 (record.get? 2)))) ∧
    (record.getD 0 [] ∈ st.seen →
      ∀ fp ∈ get_folder_ancestors (record.getD 8 []),
        (processRecord nowTs cfg resolveUser st record).agg
            (fp, resolveUser (parseU32 (record.get? 3)),
              age_bucket nowTs (sanitize_mtime nowTs (parseI64 (record.get? 2))) cfg) =
          (st.agg (fp, resolveUser (parseU32 (record.get? 3)),
              age_bucket nowTs (sanitize_mtime nowTs (parseI64 (record.get? 2))) cfg)).update
            (parseU64 (record.get? 6)) 0 (parseU64 (record.get? 7))
            (if parseU32 (record.get? 5) &&& 61440 = 16384 then 0
              else sanitize_mtime nowTs (parseI64 (record.get? 1)))
            (sanitize_mtime nowTs (parseI64 (record.get? 2)))) ∧
    ((processRecord nowTs cfg resolveUser st record).seen =
      if record.getD 0 [] ∈ st.seen then st.seen else record.getD 0 [] :: st.seen) ∧
    ((processAll 0 { young := 60, old := 600 } (fun _ => "alice")
        [sampleAggRecord, sampleAggRecord]).agg ([47, 97], "alice", 2) =
      { file_count := 2, file_size := 2000, disk_size := 1000, linked_size := 1000,
        latest_atime := 0, latest_mtime := 0 }) := by
  refine ⟨?_, ?_, ?_, by decide⟩
  · intro hfirst fp hfp
    simp only [processRecord, hfirst, not_false_iff, if_true]
    rw [if_neg (by
      simp only [not_or]
      exact ⟨by simpa using huser, by simpa using hpath⟩)]
    have hnd := folder_ancestors_nodup (record.getD 8 [])
    simp only [AggState.agg]
    rw [foldl_updMap_anc _ _ _ _ hnd, if_pos hfp]
  · intro hseen fp hfp
    simp only [processRecord, hseen, not_true, if_false]
    rw [if_neg (by
      simp only [not_or]
      exact ⟨by simpa using huser, by simpa using hpath⟩)]
    have hnd := folder_ancestors_nodup (record.getD 8 [])
    simp only [AggState.agg]
    rw [foldl_updMap_anc _ _ _ _ hnd, if_pos hfp]
  · by_cases hmem : record.getD 0 [] ∈ st.seen
    · rw [if_pos hmem]
      simp only [processRecord, hmem, not_true, if_false]
      rw [apply_ite AggState.seen]
      simp
    · rw [if_neg hmem]
      simp only [processRecord, hmem, not_false_iff, if_true]
      rw [apply_ite AggState.seen]
      simp

/-- Witness for C4: processing the sample record from the empty state adds
its inode key `2049-7` to the seen set. -/
theorem C4_first_seen_disk_witness :
    (processRecord 0 { young := 60, old := 600 } (fun _ => "alice")
        { seen := [], agg := fun _ => emptyUserStats } sampleAggRecord).seen =
      if sampleAggRecord.getD 0 [] ∈ ([] : List (List Nat)) then []
      else sampleAggRecord.getD 0 [] :: [] :=
  (C4_first_seen_disk 0 { young := 60, old := 600 } (fun _ => "alice")
    { seen := [], agg := fun _ => emptyUserStats } sampleAggRecord
    (by decide) (by decide)).2.2.1

-- ## Claim C8

theorem mem_insertFolder (x a : FolderOut) : ∀ l, a ∈ insertFolder x l ↔ a = x ∨ a ∈ l := by
  intro l
  induction l with
  | nil => simp [insertFolder]
  | cons y ys ih =>
    simp only [insertFolder]
    split
    · simp [List.mem_cons]
    · rw [List.mem_cons, ih, List.mem_cons]
      tauto

theorem mem_sortFolders (a : FolderOut) : ∀ l, a ∈ sortFolders l ↔ a ∈ l := by
  intro l
  induction l with
  | nil => simp [sortFolders]
  | cons x xs ih =>
    simp only [sortFolders]
    rw [mem_insertFolder, ih, List.mem_cons]

theorem listChildrenChild_users (idx : InMemoryFSIndex) (basePath : String)
    (userFilter : List String) (ageFilter : Option Nat) (name : String)
    (fo : FolderOut)
    (h : listChildrenChild idx basePath userFilter ageFilter name = some fo) :
    fo.users ≠ [] ∧ ∀ pr ∈ fo.users, pr.2 ≠ [] := by
  unfold listChildrenChild at h
  split at h
  next => simp at h
  next avail havail =>
    split at h
    next => simp at h
    next hshow =>
      split at h
      next => simp at h
      next husers =>
        rw [Option.some.injEq] at h
        subst h
        refine ⟨?_, ?_⟩
        · simpa [List.isEmpty_iff] using husers
        · intro pr hpr
          simp only at hpr
          unfold childUsersMap at hpr
          rw [List.mem_filterMap] at hpr
          obtain ⟨uname, _, hpr2⟩ := hpr
          split at hpr2
          next => simp at hpr2
          next hage =>
            rw [Option.some.injEq] at hpr2
            subst hpr2
            simpa [List.isEmpty_iff] using hage

/-- Claim C8: for every index, directory path, user filter and age filter,
every FolderOut in a successful result of `list_children` has a non-empty
users mapping, and every per-user inner mapping has at least one age bucket
entry. -/
theorem C8_list_children_nonempty (idx : InMemoryFSIndex) (dirPath : String)
    (userFilter : List String) (ageFilter : Option Nat) (out : List FolderOut)
    (h : list_children idx dirPath userFilter ageFilter = Except.ok out) :
    ∀ fo ∈ out, fo.users ≠ [] ∧ ∀ pr ∈ fo.users, pr.2 ≠ [] := by
  unfold list_children at h
  split at h
  next => simp at h
  next cur heq =>
    rw [Except.ok.injEq] at h
    subst h
    intro fo hfo
    rw [mem_sortFolders, List.mem_filterMap] at hfo
    obtain ⟨child, _, hchild⟩ := hfo
    exact listChildrenChild_users _ _ _ _ _ _ hchild

/-- Witness for C8 at a concrete one-folder index: the returned child has a
non-empty users mapping. -/
theorem C8_list_children_nonempty_witness :
    demoFolderOut.users ≠ [] :=
  (C8_list_children_nonempty demoIndex ("/") [] none [demoFolderOut]
    (by rfl) demoFolderOut (List.mem_cons_self _ _)).1
